import Mathlib

/-!
Verification of the N-dimensional image-iteration core of this toolkit
(region model, row-major buffer addressing, region iteration,
boundary-face decomposition, neighborhood pixel access, and the
neighborhood-operator machinery), shallowly embedded in Lean 4.

Conventions of the embedding:

The image dimension is the length of the coordinate lists.  An index is
a `List ℤ`; a size is a `List ℕ`; axis 0 (the fastest-varying, row-major
axis) is the head of the list.  A region is an origin together with a
size, exactly as in the toolkit's `ImageRegion` (`m_Index`, `m_Size`).
Pixel values of the integer-pixel filters are embedded as `ℤ`; the
`double` coefficients of the Laplacian operator are embedded as `ℚ`
(the computations involved use only ring operations, which the floating
point evaluation performs on exactly representable small integer-derived
values in the properties proved here; the algebraic content is the
exact-arithmetic one).

Definitions taken from files of this repository cite the file; the parts
of the iteration core whose implementation files are not in the surveyed
tree (the boundary-faces calculator, the region iterator, the
neighborhood iterator's pixel access, the region Pad/Crop operations)
are modelled from the specification and are marked
`Modelled from the spec:` in their doc comments.
-/

namespace ITKCore

/-- An axis-aligned rectangular region: an origin index and a per-axis
size, as in the toolkit's `ImageRegion` (`m_Index` and `m_Size`).  The
dimension is the length of the lists. -/
structure Region where
  origin : List ℤ
  size : List ℕ
  deriving DecidableEq, Repr

/-- Componentwise containment test of an index in an origin/size box:
true when the lists have equal lengths and on every axis
`origin ≤ x < origin + size`.  This is `ImageRegion::IsInside`. -/
def containsB : List ℤ → List ℕ → List ℤ → Bool
  | [], [], [] => true
  | o :: os, s :: ss, x :: xs =>
      (decide (o ≤ x) && decide (x < o + (s : ℤ))) && containsB os ss xs
  | _, _, _ => false

/-- Containment of an index in a `Region`. -/
def Region.mem (R : Region) (p : List ℤ) : Bool :=
  containsB R.origin R.size p

/-- Product of the axis sizes: `ImageRegion::GetNumberOfPixels`. -/
def prodl : List ℕ → ℕ
  | [] => 1
  | s :: ss => s * prodl ss

/-- `Region.GetNumberOfPixels`. -/
def Region.numberOfPixels (R : Region) : ℕ := prodl R.size

/-- The source's offset-to-index decode loop, from
`ImageRandomNonRepeatingConstIteratorWithIndex::UpdatePosition` and
`::SetPriorityImage`
(src/Modules/Core/Common/include/itkImageRandomNonRepeatingConstIteratorWithIndex.hxx,
lines 82-98 and 104-114): for each axis, `residual = position % size`,
the produced index component is `residual + begin`, and the running
position becomes `(position - residual) / size`.  Axis 0 first. -/
def decodeIdx : ℕ → List ℤ → List ℕ → List ℤ
  | _, [], _ => []
  | _, _ :: _, [] => []
  | position, b :: bs, s :: ss =>
      (b + ((position % s : ℕ) : ℤ)) ::
        decodeIdx ((position - position % s) / s) bs ss

/-- Modelled from the spec: `ComputeOffset(index)` of the buffer
addressing layer (spec section 4.2): the origin-relative index dotted
with the row-major strides, `stride[0] = 1`,
`stride[i] = stride[i-1] * size[i-1]`, written in Horner form over the
axis lists.  The implementation file of `ImageBase::ComputeOffset` is
not in the surveyed tree. -/
def computeOffsetZ : List ℤ → List ℕ → List ℤ → ℤ
  | [], _, _ => 0
  | _ :: _, [], _ => 0
  | _, _ :: _, [] => 0
  | o :: os, s :: ss, x :: xs => (x - o) + (s : ℤ) * computeOffsetZ os ss xs

/-- Modelled from the spec: the linear offset of a relative neighbor
coordinate, `ComputeOffset(relativeNeighborCoordinate)` using the
buffer's strides (spec section 4.5, offset-table construction), in the
same Horner form. -/
def dotStrides : List ℕ → List ℤ → ℤ
  | [], _ => 0
  | _ :: _, [] => 0
  | s :: ss, k :: ks => k + (s : ℤ) * dotStrides ss ks

/-- Modelled from the spec: the state of a region iterator (spec
section 4.4): either positioned at an index of the region or at end. -/
inductive ItState where
  | positioned : List ℤ → ItState
  | atEnd : ItState
  deriving DecidableEq, Repr

/-- Modelled from the spec: one `operator++` advance of the region
iterator (spec section 4.4): add one on the fastest axis (the head);
on rollover past the region's extent, reset that axis to the region
origin and carry into the next axis; carrying past the last axis
yields the at-end signal. -/
def regionIncr : List ℤ → List ℕ → List ℤ → Option (List ℤ)
  | [], [], [] => none
  | o :: os, s :: ss, x :: xs =>
      if x + 1 < o + (s : ℤ) then some ((x + 1) :: xs)
      else
        match regionIncr os ss xs with
        | some ys => some (o :: ys)
        | none => none
  | _, _, _ => none

/-- Modelled from the spec: `GoToBegin` positions at the region origin
(spec section 4.4); a region with no pixels begins at end. -/
def goToBegin (os : List ℤ) (ss : List ℕ) : ItState :=
  if prodl ss = 0 then ItState.atEnd else ItState.positioned os

/-- Modelled from the spec: one step of the region-iterator state
machine; advancing from at-end stays at end. -/
def stepIt (os : List ℤ) (ss : List ℕ) : ItState → ItState
  | ItState.positioned x =>
      match regionIncr os ss x with
      | some y => ItState.positioned y
      | none => ItState.atEnd
  | ItState.atEnd => ItState.atEnd

/-- Modelled from the spec: `IsAtEnd` is true only in the at-end state
(spec section 4.4). -/
def isAtEnd : ItState → Bool
  | ItState.positioned _ => false
  | ItState.atEnd => true

/-- The list of indices visited by driving the iterator while
`IsAtEnd` is false, with enough fuel for the whole region. -/
def traceAux (os : List ℤ) (ss : List ℕ) : ℕ → ItState → List (List ℤ)
  | 0, _ => []
  | _ + 1, ItState.atEnd => []
  | fuel + 1, ItState.positioned x =>
      x :: traceAux os ss fuel (stepIt os ss (ItState.positioned x))

/-- The full visiting sequence of a region iterator driven from
`GoToBegin` until `IsAtEnd`. -/
def iterTrace (os : List ℤ) (ss : List ℕ) : List (List ℤ) :=
  traceAux os ss (prodl ss) (goToBegin os ss)

/-- The per-axis data of the boundary-faces decomposition: the region's
origin `ro` on the axis, and the widths of the low boundary slab `lo`,
the interior span `isz` and the high boundary slab `hs`, which tile the
region's extent on this axis in that order. -/
structure AxisInfo where
  ro : ℤ
  lo : ℕ
  isz : ℕ
  hs : ℕ
  deriving DecidableEq, Repr

/-- Modelled from the spec: the per-axis shrink computation of the
boundary-faces calculator (spec section 4.6; the calculator's
implementation file is not in the surveyed tree).  A side of the region
needs a boundary slab exactly when fewer than `radius` pixels of the
image's largest possible region lie beyond that side (this is the
reading the spec's own concrete scenario in its section 8, item 6,
exhibits); the interior span is the region's extent minus the two slab
widths, clamped at zero. -/
def mkAxisInfo (imgO : ℤ) (imgS : ℕ) (ro : ℤ) (rs : ℕ) (rr : ℕ) : AxisInfo :=
  let lo : ℕ := min (if ro - (rr : ℤ) < imgO then rr else 0) rs
  let isz : ℕ :=
    rs - lo - (if imgO + (imgS : ℤ) < ro + (rs : ℤ) + (rr : ℤ) then rr else 0)
  { ro := ro, lo := lo, isz := isz, hs := rs - lo - isz }

/-- The per-axis decomposition data of a region against an image. -/
def axisInfos : List ℤ → List ℕ → List ℤ → List ℕ → List ℕ → List AxisInfo
  | imgO :: imgOs, imgS :: imgSs, ro :: ros, rs :: rss, rr :: rrs =>
      mkAxisInfo imgO imgS ro rs rr :: axisInfos imgOs imgSs ros rss rrs
  | _, _, _, _, _ => []

/-- The interior face assembled from the per-axis data: on every axis
the span `[ro + lo, ro + lo + isz)`. -/
def interiorRegion (axes : List AxisInfo) : Region :=
  ⟨axes.map (fun a => a.ro + (a.lo : ℤ)), axes.map (fun a => a.isz)⟩

/-- The original region assembled back from the per-axis data. -/
def fullRegion (axes : List AxisInfo) : Region :=
  ⟨axes.map (fun a => a.ro), axes.map (fun a => a.lo + a.isz + a.hs)⟩

/-- Modelled from the spec: the boundary slabs of the decomposition
(spec section 4.6): for each axis, a slab on the low and on the high
side of the interior span of that axis, spanning the interior extent on
the axes already processed and the full region extent on the axes not
yet processed. -/
def slabFaces : List AxisInfo → List Region
  | [] => []
  | a :: rest =>
      ⟨a.ro :: (rest.map (fun b => b.ro)),
        a.lo :: (rest.map (fun b => b.lo + b.isz + b.hs))⟩ ::
      ⟨(a.ro + (a.lo : ℤ) + (a.isz : ℤ)) :: (rest.map (fun b => b.ro)),
        a.hs :: (rest.map (fun b => b.lo + b.isz + b.hs))⟩ ::
      (slabFaces rest).map (fun f => ⟨(a.ro + (a.lo : ℤ)) :: f.origin, a.isz :: f.size⟩)

/-- The ordered face list: the interior face always first, then the
boundary slabs. -/
def faceListAx (axes : List AxisInfo) : List Region :=
  interiorRegion axes :: slabFaces axes

/-- Modelled from the spec: `ComputeFaces(image, R, radius)`, the
boundary-faces decomposition of region `R` of an image with largest
possible region `img`, for the given radius (spec sections 3, 4.6
and 6; the calculator of the source, `ImageBoundaryFacesCalculator`,
is used in
src/Modules/Filtering/BinaryMathematicalMorphology/include/itkObjectMorphologyImageFilter.hxx
lines 122-125 and
src/Modules/Filtering/ImageGradient/include/itkVectorGradientMagnitudeImageFilter.hxx
lines 193-197, but its implementation file is not in the surveyed
tree). -/
def computeFaces (img R : Region) (r : List ℕ) : List Region :=
  faceListAx (axisInfos img.origin img.size R.origin R.size r)

/-- The interior face of the decomposition. -/
def interiorFace (img R : Region) (r : List ℕ) : Region :=
  interiorRegion (axisInfos img.origin img.size R.origin R.size r)

/-- Two regions are disjoint when no index lies in both. -/
def disjointRegions (A B : Region) : Prop :=
  ∀ p : List ℤ, ¬(A.mem p = true ∧ B.mem p = true)

/-- Modelled from the spec: the boundary-condition strategy (spec
section 4.3): a constant value, or zero-flux Neumann clamping to the
nearest valid index per axis.  The strategy implementation files are
not in the surveyed tree. -/
inductive BoundaryCondition where
  | constant (c : ℤ)
  | zeroFluxNeumann
  deriving DecidableEq, Repr

/-- Per-axis clamp of an index to the nearest in-bounds index of an
origin/size box (the zero-flux Neumann rule of spec section 4.3). -/
def clampIdx : List ℤ → List ℕ → List ℤ → List ℤ
  | o :: os, s :: ss, x :: xs =>
      (max o (min x (o + (s : ℤ) - 1))) :: clampIdx os ss xs
  | _, _, _ => []

/-- Modelled from the spec: evaluation of a boundary-condition strategy
at an out-of-buffer absolute index (spec section 4.3): `Constant c`
returns `c` for every index; zero-flux Neumann reads the buffer at the
clamped index. -/
def BoundaryCondition.eval :
    BoundaryCondition → (ℤ → ℤ) → Region → List ℤ → ℤ
  | BoundaryCondition.constant c, _, _, _ => c
  | BoundaryCondition.zeroFluxNeumann, buffer, buffered, idx =>
      buffer (computeOffsetZ buffered.origin buffered.size
        (clampIdx buffered.origin buffered.size idx))

/-- Modelled from the spec: the two-output `GetPixel` of the
neighborhood iterator (spec sections 4.5): resolve the neighbor's
absolute image index; when it lies within the buffered region, read the
buffer at the center's linear offset plus the precomputed offset-table
entry of the relative neighbor coordinate, and report `true` (the
in-bounds flag, the `IsInBounds` output parameter); otherwise delegate
to the boundary-condition strategy and report `false` (the access was
synthesized).  Total: no access raises. -/
def getPixelFlag (buffered : Region) (buffer : ℤ → ℤ)
    (bc : BoundaryCondition) (center k : List ℤ) : ℤ × Bool :=
  let absIdx := List.zipWith (· + ·) center k
  if buffered.mem absIdx then
    (buffer (computeOffsetZ buffered.origin buffered.size center +
      dotStrides buffered.size k), true)
  else
    (bc.eval buffer buffered absIdx, false)

/-- Modelled from the spec: the one-output `GetPixel` of the
neighborhood iterator (spec section 4.5): the pixel value of
`getPixelFlag` with the flag dropped. -/
def getPixel (buffered : Region) (buffer : ℤ → ℤ)
    (bc : BoundaryCondition) (center k : List ℤ) : ℤ :=
  (getPixelFlag buffered buffer bc center k).1

/-- `ConstantBoundaryCondition::SetConstant`: replaces the stored
constant. -/
def setConstant (_ : BoundaryCondition) (c : ℤ) : BoundaryCondition :=
  BoundaryCondition.constant c

/-- Modelled from the spec: a default-constructed boundary-condition
strategy is Constant with the zero value of the pixel type (spec
section 4.3). -/
def defaultConstructedBoundaryCondition : BoundaryCondition :=
  BoundaryCondition.constant 0

/-- The boundary condition installed by the
`ObjectMorphologyImageFilter` constructor
(src/Modules/Filtering/BinaryMathematicalMorphology/include/itkObjectMorphologyImageFilter.hxx
line 36): `m_DefaultBoundaryCondition.SetConstant(PixelType{})`, the
zero pixel value. -/
def objectMorphologyDefaultBoundaryCondition : BoundaryCondition :=
  setConstant defaultConstructedBoundaryCondition 0

/-- Modelled from the spec: `Region.PadByRadius(radius)` grows the
region symmetrically by the radius on every axis with no clamping
(spec section 4.1; the implementation file of
`ImageRegion::PadByRadius` is not in the surveyed tree). -/
def padByRadius (R : Region) (r : List ℕ) : Region :=
  ⟨List.zipWith (fun (o : ℤ) (ri : ℕ) => o - (ri : ℤ)) R.origin r,
    List.zipWith (fun (s : ℕ) (ri : ℕ) => s + 2 * ri) R.size r⟩

/-- Per-axis data of the intersection of two origin/size boxes: origin
the maximum of the origins, end the minimum of the ends, with empty
axes clamped to size zero. -/
def interAxes : List ℤ → List ℕ → List ℤ → List ℕ → List (ℤ × ℕ)
  | a :: as, s :: ss, b :: bs, t :: ts =>
      (max a b, (min (a + (s : ℤ)) (b + (t : ℤ)) - max a b).toNat) ::
        interAxes as ss bs ts
  | _, _, _, _ => []

/-- The intersection of two regions. -/
def interRegion (A B : Region) : Region :=
  ⟨(interAxes A.origin A.size B.origin B.size).map Prod.fst,
    (interAxes A.origin A.size B.origin B.size).map Prod.snd⟩

/-- Modelled from the spec: `Region.Crop(other)` returns the
intersection region and fails exactly when the two regions do not
overlap at all (spec section 4.1; the implementation file of
`ImageRegion::Crop` is not in the surveyed tree). -/
def cropRegion (A B : Region) : Option Region :=
  let C := interRegion A B
  if 0 < prodl C.size then some C else none

/-- The geometry state of an image object that
`GenerateInputRequestedRegion` manipulates: its largest possible
region, its requested region, and its identity (the data object the
error of a failed crop carries). -/
structure ImageState where
  largestPossibleRegion : Region
  requestedRegion : Region
  dataObjectId : ℕ
  deriving DecidableEq, Repr

/-- The payload of the `InvalidRequestedRegionError` exception built at
src/Modules/Filtering/BinaryMathematicalMorphology/include/itkObjectMorphologyImageFilter.hxx
lines 79-83 and
src/Modules/Filtering/ImageGradient/include/itkVectorGradientMagnitudeImageFilter.hxx
lines 122-126: the data object it is attached to; the attempted region
is the one stored on that image before the throw, recorded here
explicitly for the statement of claim C4. -/
structure InvalidRequestedRegionError where
  region : Region
  dataObjectId : ℕ
  deriving DecidableEq, Repr

/-- `GenerateInputRequestedRegion` of
src/Modules/Filtering/BinaryMathematicalMorphology/include/itkObjectMorphologyImageFilter.hxx
lines 45-84 (the same control flow as
src/Modules/Filtering/ImageGradient/include/itkVectorGradientMagnitudeImageFilter.hxx
lines 86-127): pad the input requested region by the kernel radius,
crop it against the input's largest possible region; on success store
the cropped region and return without error; on failure store the
uncropped padded region on the image and throw
`InvalidRequestedRegionError` attached to the input image. -/
def generateInputRequestedRegion (input : ImageState) (radius : List ℕ) :
    ImageState × Option InvalidRequestedRegionError :=
  let padded := padByRadius input.requestedRegion radius
  match cropRegion padded input.largestPossibleRegion with
  | some cropped => ({ input with requestedRegion := cropped }, none)
  | none =>
      ({ input with requestedRegion := padded },
        some { region := padded, dataObjectId := input.dataObjectId })

/-- The initial `FillBuffer` value of
`ObjectMorphologyImageFilter::BeforeThreadedGenerateData`
(src/Modules/Filtering/BinaryMathematicalMorphology/include/itkObjectMorphologyImageFilter.hxx
lines 90-97): 1 when `m_ObjectValue` equals the zero pixel value, 0
otherwise. -/
def fillValue (objectValue : ℤ) : ℤ :=
  if objectValue = 0 then 1 else 0

/-- The input-to-output copy loop of
`ObjectMorphologyImageFilter::BeforeThreadedGenerateData`
(src/Modules/Filtering/BinaryMathematicalMorphology/include/itkObjectMorphologyImageFilter.hxx
lines 105-113), over the visiting sequence of the region iterators: at
each visited position, when the output pixel differs from
`m_ObjectValue` the input pixel is copied there. -/
def copyLoop (objectValue : ℤ) (inp : List ℤ → ℤ) :
    List (List ℤ) → (List ℤ → ℤ) → (List ℤ → ℤ)
  | [], out => out
  | p :: ps, out =>
      copyLoop objectValue inp ps
        (if out p ≠ objectValue then Function.update out p (inp p) else out)

/-- `ObjectMorphologyImageFilter::BeforeThreadedGenerateData`
(src/Modules/Filtering/BinaryMathematicalMorphology/include/itkObjectMorphologyImageFilter.hxx
lines 88-114): fill the output with `fillValue`, then run the copy
loop over the requested region. -/
def beforeThreadedGenerateData (objectValue : ℤ) (inp : List ℤ → ℤ)
    (R : Region) : List ℤ → ℤ :=
  copyLoop objectValue inp (iterTrace R.origin R.size)
    (fun _ => fillValue objectValue)

/-- `NeighborhoodOperator::SetDirection`
(src/Modules/Core/Common/include/itkNeighborhoodOperator.h lines
93-102): when `direction >= VDimension` an exception is thrown (second
component `true`) and the stored direction is left unchanged; otherwise
the direction is stored. -/
def setDirection (vdim mDirection direction : ℕ) : ℕ × Bool :=
  if vdim ≤ direction then (mDirection, true) else (direction, false)

/-- `NeighborhoodOperator::GetDirection`
(src/Modules/Core/Common/include/itkNeighborhoodOperator.h lines
105-109): returns the stored direction. -/
def getDirection (mDirection : ℕ) : ℕ := mDirection

/-- The assignment loop of `LaplacianOperator::GenerateCoefficients`
(src/Modules/Core/Common/include/itkLaplacianOperator.hxx lines 78-85):
for each axis `m` below the counter, write the squared derivative
scaling of axis `m` at the two entries at the center offset by plus and
minus the stride of axis `m`; the neighborhood has radius 1 on every
axis, so the stride of axis `m` is `3 ^ m` (row-major, spec
section 4.2; the `Neighborhood::GetStride` implementation file is not
in the surveyed tree). -/
def lapLoop (s : ℕ → ℚ) (w2 : ℕ) : ℕ → (ℕ → ℚ) → (ℕ → ℚ)
  | 0, f => f
  | m + 1, f =>
      Function.update
        (Function.update (lapLoop s w2 m f) (w2 + 3 ^ m) (s m * s m))
        (w2 - 3 ^ m) (s m * s m)

/-- `LaplacianOperator::GenerateCoefficients`
(src/Modules/Core/Common/include/itkLaplacianOperator.hxx lines
65-89): a zero-initialized coefficient vector of length `3 ^ D`
(radius 1 on every axis), the off-center loop assignments, and the
center entry set to the negated accumulated sum `2 * s_i^2`. -/
def laplacianGenerateCoefficients (D : ℕ) (s : ℕ → ℚ) : List ℚ :=
  let w : ℕ := 3 ^ D
  let f : ℕ → ℚ := lapLoop s (w / 2) D (fun _ => 0)
  let f2 : ℕ → ℚ :=
    Function.update f (w / 2) (-(∑ i in Finset.range D, 2 * (s i * s i)))
  (List.range w).map f2

/-- Componentwise test that the region `(ro, rs)` lies within the
region `(io, ims)`. -/
def regionWithinB : List ℤ → List ℕ → List ℤ → List ℕ → Bool
  | [], [], [], [] => true
  | io :: ios, ims :: imss, ro :: ros, rs :: rss =>
      (decide (io ≤ ro) && decide (ro + (rs : ℤ) ≤ io + (ims : ℤ))) &&
        regionWithinB ios imss ros rss
  | _, _, _, _ => false

/-- A relative neighbor coordinate lies within the radius:
componentwise `-r ≤ k ≤ r`. -/
def withinRadiusB : List ℕ → List ℤ → Bool
  | [], [] => true
  | ri :: rs, kk :: ks =>
      (decide (-(ri : ℤ) ≤ kk) && decide (kk ≤ (ri : ℤ))) && withinRadiusB rs ks
  | _, _ => false

/-- The boundary-faces decomposition contract: the faces are pairwise
disjoint, their union is exactly the decomposed region, the interior
face comes first, and — when the decomposed region is the whole
image — the interior face is empty exactly when some axis extent of
the region is at most twice the radius. -/
def FaceDecompositionSpec (img R : Region) (r : List ℕ) : Prop :=
  (computeFaces img R r).Pairwise disjointRegions ∧
  (∀ p : List ℤ, R.mem p = true ↔ ∃ f ∈ computeFaces img R r, f.mem p = true) ∧
  (computeFaces img R r).head? = some (interiorFace img R r) ∧
  (R = img →
    ((∀ p : List ℤ, (interiorFace img R r).mem p = false) ↔
      ∃ pr ∈ R.size.zip r, pr.1 ≤ 2 * pr.2))

/-- The region-iterator contract: driving the iterator from
`GoToBegin` until `IsAtEnd` visits exactly `prod(size)` positions,
each within the region, each exactly once, and consecutive visits have
consecutive row-major offsets (a step of +1 on the fastest axis with
carry on rollover). -/
def RowMajorIterationSpec (os : List ℤ) (ss : List ℕ) : Prop :=
  (iterTrace os ss).length = prodl ss ∧
  (∀ p ∈ iterTrace os ss, containsB os ss p = true) ∧
  (iterTrace os ss).Nodup ∧
  ∀ n : ℕ, n + 1 < (iterTrace os ss).length →
    computeOffsetZ os ss ((iterTrace os ss).getD (n + 1) []) =
      computeOffsetZ os ss ((iterTrace os ss).getD n []) + 1

/-- The requested-region contract of `GenerateInputRequestedRegion`:
on a successful crop of the padded region, the cropped (nonempty)
region becomes the requested region and no error is raised; on a
failed crop, the uncropped padded region is stored on the image and
the error carries that region and the image identity; and the crop
fails exactly when the padded region and the largest possible region
share no index. -/
def PadCropRequestSpec (input : ImageState) (radius : List ℕ) : Prop :=
  (∀ C : Region,
    cropRegion (padByRadius input.requestedRegion radius)
        input.largestPossibleRegion = some C →
      generateInputRequestedRegion input radius =
        ({ input with requestedRegion := C }, none) ∧ 0 < prodl C.size) ∧
  (cropRegion (padByRadius input.requestedRegion radius)
      input.largestPossibleRegion = none →
    generateInputRequestedRegion input radius =
      ({ input with requestedRegion := padByRadius input.requestedRegion radius },
        some { region := padByRadius input.requestedRegion radius,
               dataObjectId := input.dataObjectId })) ∧
  (cropRegion (padByRadius input.requestedRegion radius)
      input.largestPossibleRegion = none ↔
    ∀ p : List ℤ,
      ¬((padByRadius input.requestedRegion radius).mem p = true ∧
        input.largestPossibleRegion.mem p = true))

/-- The coefficient contract of the Laplacian operator: length `3^D`,
the two entries at the center offset by the stride of each axis hold
that axis's squared scaling, the center holds the negated sum of twice
the squared scalings, every other entry is zero, and the coefficients
sum to zero. -/
def LaplacianCoefficientsSpec (D : ℕ) (s : ℕ → ℚ) : Prop :=
  (laplacianGenerateCoefficients D s).length = 3 ^ D ∧
  (∀ i, i < D →
    (laplacianGenerateCoefficients D s).getD (3 ^ D / 2 - 3 ^ i) 0 =
      s i * s i ∧
    (laplacianGenerateCoefficients D s).getD (3 ^ D / 2 + 3 ^ i) 0 =
      s i * s i) ∧
  (laplacianGenerateCoefficients D s).getD (3 ^ D / 2) 0 =
    -(∑ i in Finset.range D, 2 * (s i * s i)) ∧
  (∀ j, j < 3 ^ D → j ≠ 3 ^ D / 2 →
    (∀ i, i < D → j ≠ 3 ^ D / 2 - 3 ^ i ∧ j ≠ 3 ^ D / 2 + 3 ^ i) →
    (laplacianGenerateCoefficients D s).getD j 0 = 0) ∧
  (laplacianGenerateCoefficients D s).sum = 0

theorem sub_mod_div_eq (n s : ℕ) : (n - n % s) / s = n / s := by
  rcases Nat.eq_zero_or_pos s with hs | hs
  · subst hs; simp [Nat.mod_zero]
  · have h := Nat.div_add_mod n s
    have : n - n % s = s * (n / s) := by omega
    rw [this, Nat.mul_div_cancel_left _ hs]

theorem containsB_length {os : List ℤ} {ss : List ℕ} {xs : List ℤ}
    (h : containsB os ss xs = true) :
    os.length = ss.length ∧ os.length = xs.length := by
  induction os generalizing ss xs with
  | nil => cases ss <;> cases xs <;> simp_all [containsB]
  | cons o os ih =>
      cases ss with
      | nil => simp [containsB] at h
      | cons s ss =>
          cases xs with
          | nil => simp [containsB] at h
          | cons x xs =>
              simp only [containsB, Bool.and_eq_true] at h
              have := ih h.2
              simp only [List.length_cons]
              omega

theorem computeOffsetZ_nonneg_lt {os : List ℤ} {ss : List ℕ} {xs : List ℤ}
    (h : containsB os ss xs = true) :
    0 ≤ computeOffsetZ os ss xs ∧ computeOffsetZ os ss xs < (prodl ss : ℤ) := by
  induction os generalizing ss xs with
  | nil =>
      cases ss <;> cases xs <;> simp_all [containsB, computeOffsetZ, prodl]
  | cons o os ih =>
      cases ss with
      | nil => simp [containsB] at h
      | cons s ss =>
          cases xs with
          | nil => simp [containsB] at h
          | cons x xs =>
              simp only [containsB, Bool.and_eq_true, decide_eq_true_eq] at h
              obtain ⟨⟨h1, h2⟩, h3⟩ := h
              obtain ⟨ih1, ih2⟩ := ih h3
              simp only [computeOffsetZ, prodl]
              constructor
              · have : 0 ≤ (s : ℤ) * computeOffsetZ os ss xs :=
                  mul_nonneg (by positivity) ih1
                omega
              · have hrest : computeOffsetZ os ss xs ≤ (prodl ss : ℤ) - 1 := by omega
                have hmul : (s : ℤ) * computeOffsetZ os ss xs ≤
                    (s : ℤ) * ((prodl ss : ℤ) - 1) :=
                  mul_le_mul_of_nonneg_left hrest (by positivity)
                have : ((s : ℤ)) * ((prodl ss : ℤ) - 1) = (s * prodl ss : ℕ) - s := by
                  push_cast; ring
                rw [this] at hmul
                omega

/-- Decoding the row-major offset of an in-region index recovers the
index: the round trip behind claim C3, proved by induction on the axis
lists. -/
theorem decodeIdx_computeOffsetZ {os : List ℤ} {ss : List ℕ} {xs : List ℤ}
    (h : containsB os ss xs = true) :
    decodeIdx (computeOffsetZ os ss xs).toNat os ss = xs := by
  induction os generalizing ss xs with
  | nil =>
      cases ss <;> cases xs <;> simp_all [containsB, decodeIdx]
  | cons o os ih =>
      cases ss with
      | nil => simp [containsB] at h
      | cons s ss =>
          cases xs with
          | nil => simp [containsB] at h
          | cons x xs =>
              simp only [containsB, Bool.and_eq_true, decide_eq_true_eq] at h
              obtain ⟨⟨h1, h2⟩, h3⟩ := h
              obtain ⟨hr0, _⟩ := computeOffsetZ_nonneg_lt h3
              simp only [computeOffsetZ, decodeIdx]
              set r : ℤ := computeOffsetZ os ss xs with hr
              have hs0 : 0 < s := by omega
              have hxo : 0 ≤ x - o := by omega
              have hsr : ((s : ℤ) * r).toNat = s * r.toNat := by
                rcases Int.eq_ofNat_of_zero_le hr0 with ⟨m, hm⟩
                rw [hm, ← Nat.cast_mul, Int.toNat_natCast, Int.toNat_natCast]
              have htn : ((x - o) + (s : ℤ) * r).toNat
                  = (x - o).toNat + s * r.toNat := by
                rw [Int.toNat_add hxo (mul_nonneg (by positivity) hr0), hsr]
              rw [htn, sub_mod_div_eq]
              have hlt : (x - o).toNat < s := by omega
              have hmod : ((x - o).toNat + s * r.toNat) % s = (x - o).toNat :=
                by rw [Nat.add_mul_mod_self_left, Nat.mod_eq_of_lt hlt]
              have hdiv : ((x - o).toNat + s * r.toNat) / s = r.toNat := by
                rw [Nat.add_mul_div_left _ _ hs0, Nat.div_eq_of_lt hlt]; omega
              rw [hmod, hdiv]
              have hx : o + ((x - o).toNat : ℤ) = x := by omega
              rw [hx, ih h3]

theorem prodl_eq_zero {ss : List ℕ} (h : (0 : ℕ) ∈ ss) : prodl ss = 0 := by
  induction ss with
  | nil => simp at h
  | cons a ssr ih =>
      rcases List.mem_cons.mp h with h1 | h1
      · simp [prodl, ← h1]
      · simp [prodl, ih h1]

theorem prodl_pos_of_lt {ss : List ℕ} {n : ℕ} (h : n < prodl ss) :
    ∀ s ∈ ss, 0 < s := by
  intro s hs
  rcases Nat.eq_zero_or_pos s with h0 | h0
  · exfalso
    have := prodl_eq_zero (h0 ▸ hs)
    omega
  · exact h0

/-- The decoded index of any offset below the pixel count lies in the
region. -/
theorem containsB_decodeIdx {os : List ℤ} {ss : List ℕ} {n : ℕ}
    (hl : os.length = ss.length) (h : n < prodl ss) :
    containsB os ss (decodeIdx n os ss) = true := by
  induction os generalizing ss n with
  | nil =>
      cases ss with
      | nil => simp [decodeIdx, containsB]
      | cons s ss => simp at hl
  | cons o os ih =>
      cases ss with
      | nil => simp at hl
      | cons s ss =>
          have hs0 : 0 < s := by
            have := prodl_pos_of_lt h s (by simp)
            exact this
          simp only [decodeIdx, containsB, Bool.and_eq_true, decide_eq_true_eq]
          refine ⟨⟨by omega, ?_⟩, ?_⟩
          · have : n % s < s := Nat.mod_lt _ hs0
            omega
          · rw [sub_mod_div_eq]
            apply ih (by simpa using hl)
            have hdiv : n / s < prodl ss := by
              rw [Nat.div_lt_iff_lt_mul hs0]
              calc n < prodl (s :: ss) := h
                _ = prodl ss * s := by simp [prodl]; ring
            exact hdiv

/-- The offset of the decoded index is the offset itself: `decodeIdx`
is a right inverse of `computeOffsetZ` below the pixel count. -/
theorem computeOffsetZ_decodeIdx {os : List ℤ} {ss : List ℕ} {n : ℕ}
    (hl : os.length = ss.length) (h : n < prodl ss) :
    computeOffsetZ os ss (decodeIdx n os ss) = (n : ℤ) := by
  induction os generalizing ss n with
  | nil =>
      cases ss with
      | nil =>
          simp [prodl] at h
          simp [decodeIdx, computeOffsetZ, h]
      | cons s ss => simp at hl
  | cons o os ih =>
      cases ss with
      | nil => simp at hl
      | cons s ss =>
          have hs0 : 0 < s := prodl_pos_of_lt h s (by simp)
          simp only [decodeIdx, computeOffsetZ]
          rw [sub_mod_div_eq]
          have hdiv : n / s < prodl ss := by
            rw [Nat.div_lt_iff_lt_mul hs0]
            calc n < prodl (s :: ss) := h
              _ = prodl ss * s := by simp [prodl]; ring
          rw [ih (by simpa using hl) hdiv]
          have hdm : s * (n / s) + n % s = n := Nat.div_add_mod n s
          have hz : ((s : ℤ)) * ((n / s : ℕ) : ℤ) + ((n % s : ℕ) : ℤ) = (n : ℤ) := by
            exact_mod_cast hdm
          linear_combination hz

/-- Advancing from the decoded index of `n` yields the decoded index of
`n + 1` while pixels remain, and the end signal at the last pixel. -/
theorem regionIncr_decodeIdx {os : List ℤ} {ss : List ℕ}
    (hl : os.length = ss.length) :
    ∀ n : ℕ,
      (n + 1 < prodl ss →
        regionIncr os ss (decodeIdx n os ss) = some (decodeIdx (n + 1) os ss)) ∧
      (n + 1 = prodl ss → regionIncr os ss (decodeIdx n os ss) = none) := by
  induction os generalizing ss with
  | nil =>
      cases ss with
      | nil =>
          intro n
          constructor
          · intro h; simp [prodl] at h
          · intro _; simp [decodeIdx, regionIncr]
      | cons s ss => simp at hl
  | cons o os ih =>
      cases ss with
      | nil => simp at hl
      | cons s ss =>
          intro n
          have hlr : os.length = ss.length := by simpa using hl
          have hp : prodl (s :: ss) = s * prodl ss := rfl
          constructor
          · intro h
            have hs0 : 0 < s := prodl_pos_of_lt (show n < prodl (s :: ss) by omega) s (by simp)
            have hmodlt : n % s < s := Nat.mod_lt _ hs0
            have hdm : s * (n / s) + n % s = n := Nat.div_add_mod n s
            simp only [decodeIdx, regionIncr, sub_mod_div_eq]
            by_cases hc : n % s + 1 < s
            · have hle : (o + ((n % s : ℕ) : ℤ)) + 1 < o + (s : ℤ) := by
                push_cast; omega
              rw [if_pos hle]
              have hm : (n + 1) / s = n / s ∧ (n + 1) % s = n % s + 1 :=
                (Nat.div_mod_unique hs0).mpr ⟨by omega, hc⟩
              rw [hm.1, hm.2]
              simp only [Option.some.injEq, List.cons.injEq]
              exact ⟨by push_cast; ring, trivial⟩
            · have hms : n % s + 1 = s := by omega
              have hle : ¬ ((o + ((n % s : ℕ) : ℤ)) + 1 < o + (s : ℤ)) := by
                push_cast; omega
              rw [if_neg hle]
              have hq : s * (n / s + 1) = s * (n / s) + s := by ring
              have hm : (n + 1) / s = n / s + 1 ∧ (n + 1) % s = 0 :=
                (Nat.div_mod_unique hs0).mpr ⟨by omega, hs0⟩
              have hdn : n + 1 = s * (n / s + 1) := by omega
              have hlt2 : n / s + 1 < prodl ss := by
                rw [hp, hdn] at h
                exact lt_of_mul_lt_mul_left h (Nat.zero_le s)
              rw [(ih hlr (n / s)).1 hlt2]
              rw [hm.1, hm.2]
              simp only [Option.some.injEq, List.cons.injEq]
              exact ⟨by simp, trivial⟩
          · intro h
            have hs0 : 0 < s := by
              rcases Nat.eq_zero_or_pos s with h0 | h0
              · rw [hp, h0] at h; omega
              · exact h0
            have hP1 : 1 ≤ prodl ss := by
              rcases Nat.eq_zero_or_pos (prodl ss) with h0 | h0
              · rw [hp, h0] at h; omega
              · exact h0
            obtain ⟨Q, hQ⟩ : ∃ Q, prodl ss = Q + 1 := ⟨prodl ss - 1, by omega⟩
            have hsq : s * (Q + 1) = s * Q + s := by ring
            have hnv : n = s * Q + (s - 1) := by
              rw [hp, hQ] at h
              omega
            have hm : n / s = Q ∧ n % s = s - 1 :=
              (Nat.div_mod_unique hs0).mpr ⟨by omega, by omega⟩
            simp only [decodeIdx, regionIncr, sub_mod_div_eq]
            have hle : ¬ ((o + ((n % s : ℕ) : ℤ)) + 1 < o + (s : ℤ)) := by
              rw [hm.2]
              omega
            rw [if_neg hle]
            have heq : n / s + 1 = prodl ss := by rw [hm.1, hQ]
            rw [(ih hlr (n / s)).2 heq]

theorem decodeIdx_zero {os : List ℤ} {ss : List ℕ}
    (hl : os.length = ss.length) : decodeIdx 0 os ss = os := by
  induction os generalizing ss with
  | nil => cases ss <;> simp [decodeIdx]
  | cons o os ih =>
      cases ss with
      | nil => simp at hl
      | cons s ss =>
          simp only [decodeIdx, Nat.zero_mod, Nat.zero_div, Nat.zero_sub]
          rw [ih (by simpa using hl)]
          simp

theorem traceAux_decode {os : List ℤ} {ss : List ℕ}
    (hl : os.length = ss.length) :
    ∀ fuel k, k + fuel = prodl ss →
      traceAux os ss fuel (ItState.positioned (decodeIdx k os ss)) =
        (List.range' k fuel).map (fun n => decodeIdx n os ss) := by
  intro fuel
  induction fuel with
  | zero => intro k _; simp [traceAux]
  | succ f ih =>
      intro k hk
      simp only [traceAux, stepIt]
      rcases Nat.eq_zero_or_pos f with hf | hf
      · subst hf
        have hend : k + 1 = prodl ss := by omega
        rw [(regionIncr_decodeIdx hl k).2 hend]
        simp [traceAux, List.range']
      · have hlt : k + 1 < prodl ss := by omega
        rw [(regionIncr_decodeIdx hl k).1 hlt]
        rw [ih (k + 1) (by omega)]
        simp [List.range']

/-- The full visiting sequence of the region iterator is exactly the
row-major decode of the offsets `0, 1, …, N-1`. -/
theorem iterTrace_eq_map_decode {os : List ℤ} {ss : List ℕ}
    (hl : os.length = ss.length) :
    iterTrace os ss = (List.range (prodl ss)).map (fun n => decodeIdx n os ss) := by
  unfold iterTrace goToBegin
  rcases Nat.eq_zero_or_pos (prodl ss) with h0 | h0
  · rw [h0]
    simp [traceAux]
  · rw [if_neg (by omega)]
    have := traceAux_decode hl (prodl ss) 0 (by omega)
    rw [decodeIdx_zero hl] at this
    rw [this, List.range_eq_range']

theorem iterTrace_nodup {os : List ℤ} {ss : List ℕ}
    (hl : os.length = ss.length) : (iterTrace os ss).Nodup := by
  rw [iterTrace_eq_map_decode hl]
  refine List.Nodup.map_on ?_ (List.nodup_range _)
  intro a ha b hb hab
  rw [List.mem_range] at ha hb
  have ha2 := computeOffsetZ_decodeIdx hl ha
  have hb2 := computeOffsetZ_decodeIdx hl hb
  rw [hab] at ha2
  rw [ha2] at hb2
  exact_mod_cast hb2

theorem containsB_cons {o : ℤ} {os : List ℤ} {s : ℕ} {ss : List ℕ}
    {p : List ℤ} :
    containsB (o :: os) (s :: ss) p = true ↔
      ∃ x xs, p = x :: xs ∧ o ≤ x ∧ x < o + (s : ℤ) ∧
        containsB os ss xs = true := by
  cases p with
  | nil => simp [containsB]
  | cons x xs =>
      simp only [containsB, Bool.and_eq_true, decide_eq_true_eq, List.cons.injEq]
      constructor
      · rintro ⟨⟨h1, h2⟩, h3⟩
        exact ⟨x, xs, ⟨rfl, rfl⟩, h1, h2, h3⟩
      · rintro ⟨y, ys, ⟨rfl, rfl⟩, h1, h2, h3⟩
        exact ⟨⟨h1, h2⟩, h3⟩

theorem fullRegion_axisInfos (imgOs : List ℤ) (imgSs : List ℕ)
    (ros : List ℤ) (rss : List ℕ) (rrs : List ℕ)
    (h1 : imgOs.length = ros.length) (h2 : imgSs.length = ros.length)
    (h3 : rss.length = ros.length) (h4 : rrs.length = ros.length) :
    fullRegion (axisInfos imgOs imgSs ros rss rrs) = ⟨ros, rss⟩ := by
  induction ros generalizing imgOs imgSs rss rrs with
  | nil =>
      cases imgOs with
      | cons _ _ => simp at h1
      | nil =>
          cases imgSs with
          | cons _ _ => simp at h2
          | nil =>
              cases rss with
              | cons _ _ => simp at h3
              | nil =>
                  cases rrs with
                  | cons _ _ => simp at h4
                  | nil => rfl
  | cons ro ros ih =>
      cases imgOs with
      | nil => simp at h1
      | cons imgO imgOs =>
          cases imgSs with
          | nil => simp at h2
          | cons imgS imgSs =>
              cases rss with
              | nil => simp at h3
              | cons rs rss =>
                  cases rrs with
                  | nil => simp at h4
                  | cons rr rrs =>
                      have := ih imgOs imgSs rss rrs
                        (by simpa using h1) (by simpa using h2)
                        (by simpa using h3) (by simpa using h4)
                      simp only [axisInfos, fullRegion, List.map_cons] at this ⊢
                      have hsum : (mkAxisInfo imgO imgS ro rs rr).lo +
                          (mkAxisInfo imgO imgS ro rs rr).isz +
                          (mkAxisInfo imgO imgS ro rs rr).hs = rs := by
                        simp only [mkAxisInfo]
                        omega
                      have hro : (mkAxisInfo imgO imgS ro rs rr).ro = ro := rfl
                      simp only [Region.mk.injEq, List.cons.injEq] at this ⊢
                      exact ⟨⟨hro, this.1⟩, ⟨hsum, this.2⟩⟩

theorem interiorRegion_cons (a : AxisInfo) (rest : List AxisInfo) :
    interiorRegion (a :: rest) =
      ⟨(a.ro + (a.lo : ℤ)) :: (interiorRegion rest).origin,
        a.isz :: (interiorRegion rest).size⟩ := rfl

theorem fullRegion_cons (a : AxisInfo) (rest : List AxisInfo) :
    fullRegion (a :: rest) =
      ⟨a.ro :: (fullRegion rest).origin,
        (a.lo + a.isz + a.hs) :: (fullRegion rest).size⟩ := rfl

/-- The union of all faces of the decomposition is exactly the
decomposed region: every index of the region lies in some face and
every face lies inside the region. -/
theorem mem_faceListAx (axes : List AxisInfo) (p : List ℤ) :
    (∃ f ∈ faceListAx axes, f.mem p = true) ↔
      (fullRegion axes).mem p = true := by
  induction axes generalizing p with
  | nil =>
      simp [faceListAx, slabFaces, interiorRegion, fullRegion]
  | cons a rest ih =>
      constructor
      · rintro ⟨f, hf, hmem⟩
        rcases List.mem_cons.mp hf with rfl | hf2
        · rw [interiorRegion_cons] at hmem
          rcases containsB_cons.mp hmem with ⟨x, xs, rfl, hle, hlt, htail⟩
          rw [fullRegion_cons]
          refine containsB_cons.mpr ⟨x, xs, rfl, by omega, by push_cast; omega, ?_⟩
          exact (ih xs).mp ⟨interiorRegion rest, List.mem_cons_self _ _, htail⟩
        · simp only [slabFaces, List.mem_cons, List.mem_map] at hf2
          rcases hf2 with rfl | rfl | ⟨g, hg, rfl⟩
          · rcases containsB_cons.mp hmem with ⟨x, xs, rfl, hle, hlt, htail⟩
            rw [fullRegion_cons]
            refine containsB_cons.mpr ⟨x, xs, rfl, by omega, by push_cast; omega, ?_⟩
            simpa [fullRegion, Region.mem] using htail
          · rcases containsB_cons.mp hmem with ⟨x, xs, rfl, hle, hlt, htail⟩
            rw [fullRegion_cons]
            refine containsB_cons.mpr ⟨x, xs, rfl, by omega,
              by push_cast; omega, ?_⟩
            simpa [fullRegion, Region.mem] using htail
          · rcases containsB_cons.mp hmem with ⟨x, xs, rfl, hle, hlt, htail⟩
            rw [fullRegion_cons]
            refine containsB_cons.mpr ⟨x, xs, rfl, by omega, by push_cast; omega, ?_⟩
            exact (ih xs).mp ⟨g, List.mem_cons_of_mem _ hg, htail⟩
      · intro hmem
        rw [fullRegion_cons] at hmem
        rcases containsB_cons.mp hmem with ⟨x, xs, rfl, hle, hlt, htail⟩
        by_cases hlow : x < a.ro + (a.lo : ℤ)
        · refine ⟨⟨a.ro :: (rest.map (fun b => b.ro)),
            a.lo :: (rest.map (fun b => b.lo + b.isz + b.hs))⟩, ?_, ?_⟩
          · simp [faceListAx, slabFaces]
          · exact containsB_cons.mpr ⟨x, xs, rfl, hle, hlow,
              by simpa [fullRegion, Region.mem] using htail⟩
        · by_cases hhigh : a.ro + (a.lo : ℤ) + (a.isz : ℤ) ≤ x
          · refine ⟨⟨(a.ro + (a.lo : ℤ) + (a.isz : ℤ)) :: (rest.map (fun b => b.ro)),
              a.hs :: (rest.map (fun b => b.lo + b.isz + b.hs))⟩, ?_, ?_⟩
            · simp [faceListAx, slabFaces]
            · refine containsB_cons.mpr ⟨x, xs, rfl, hhigh, by push_cast at hlt ⊢; omega,
                by simpa [fullRegion, Region.mem] using htail⟩
          · have htail2 : (fullRegion rest).mem xs = true := by
              simpa [fullRegion, Region.mem] using htail
            rcases (ih xs).mpr htail2 with ⟨g, hg, hgm⟩
            rcases List.mem_cons.mp hg with rfl | hg2
            · refine ⟨interiorRegion (a :: rest), List.mem_cons_self _ _, ?_⟩
              rw [interiorRegion_cons]
              exact containsB_cons.mpr ⟨x, xs, rfl, by omega, by omega, hgm⟩
            · refine ⟨⟨(a.ro + (a.lo : ℤ)) :: g.origin, a.isz :: g.size⟩, ?_, ?_⟩
              · simp only [faceListAx, slabFaces, List.mem_cons, List.mem_map]
                exact Or.inr (Or.inr (Or.inr ⟨g, hg2, rfl⟩))
              · exact containsB_cons.mpr ⟨x, xs, rfl, by omega, by omega, hgm⟩

theorem disjoint_cons_of_interval {c1 c2 : ℤ} {d1 d2 : ℕ}
    {o1 o2 : List ℤ} {s1 s2 : List ℕ}
    (h : ∀ x : ℤ, ¬(c1 ≤ x ∧ x < c1 + (d1 : ℤ) ∧ c2 ≤ x ∧ x < c2 + (d2 : ℤ))) :
    disjointRegions ⟨c1 :: o1, d1 :: s1⟩ ⟨c2 :: o2, d2 :: s2⟩ := by
  rintro p ⟨h1, h2⟩
  rcases containsB_cons.mp h1 with ⟨x, xs, rfl, ha1, ha2, _⟩
  rcases containsB_cons.mp h2 with ⟨y, ys, heq, hb1, hb2, _⟩
  injection heq with hxy _
  subst hxy
  exact h x ⟨ha1, ha2, hb1, hb2⟩

theorem disjoint_cons_of_tail {c1 c2 : ℤ} {d1 d2 : ℕ} {A B : Region}
    (h : disjointRegions A B) :
    disjointRegions ⟨c1 :: A.origin, d1 :: A.size⟩ ⟨c2 :: B.origin, d2 :: B.size⟩ := by
  rintro p ⟨h1, h2⟩
  rcases containsB_cons.mp h1 with ⟨x, xs, rfl, _, _, ht1⟩
  rcases containsB_cons.mp h2 with ⟨y, ys, heq, _, _, ht2⟩
  injection heq with _ hxs
  subst hxs
  exact h xs ⟨ht1, ht2⟩

/-- The faces of the decomposition are pairwise disjoint. -/
theorem faceListAx_pairwise (axes : List AxisInfo) :
    (faceListAx axes).Pairwise disjointRegions := by
  induction axes with
  | nil => simp [faceListAx, slabFaces]
  | cons a rest ih =>
      have hih := List.pairwise_cons.mp ih
      have hInt := hih.1
      have hSl := hih.2
      refine List.pairwise_cons.mpr ⟨?_, ?_⟩
      · intro b hb
        simp only [slabFaces, List.mem_cons, List.mem_map] at hb
        rcases hb with rfl | rfl | ⟨g, hg, rfl⟩
        · rw [interiorRegion_cons]
          exact disjoint_cons_of_interval (by intro x; omega)
        · rw [interiorRegion_cons]
          exact disjoint_cons_of_interval (by intro x; omega)
        · rw [interiorRegion_cons]
          exact disjoint_cons_of_tail (hInt g hg)
      · show (slabFaces (a :: rest)).Pairwise disjointRegions
        rw [slabFaces]
        refine List.pairwise_cons.mpr ⟨?_, List.pairwise_cons.mpr ⟨?_, ?_⟩⟩
        · intro b hb
          rcases List.mem_cons.mp hb with rfl | hb2
          · exact disjoint_cons_of_interval (by intro x; omega)
          · rcases List.mem_map.mp hb2 with ⟨g, hg, rfl⟩
            exact disjoint_cons_of_interval (by intro x; omega)
        · intro b hb
          rcases List.mem_map.mp hb with ⟨g, hg, rfl⟩
          exact disjoint_cons_of_interval (by intro x; omega)
        · exact hSl.map _ (fun f g hfg => disjoint_cons_of_tail hfg)

theorem regionWithinB_length {ios : List ℤ} {imss : List ℕ}
    {ros : List ℤ} {rss : List ℕ}
    (h : regionWithinB ios imss ros rss = true) :
    imss.length = ios.length ∧ ros.length = ios.length ∧
      rss.length = ios.length := by
  induction ios generalizing imss ros rss with
  | nil => cases imss <;> cases ros <;> cases rss <;> simp_all [regionWithinB]
  | cons io ios ih =>
      cases imss with
      | nil => simp [regionWithinB] at h
      | cons ims imss =>
          cases ros with
          | nil => simp [regionWithinB] at h
          | cons ro ros =>
              cases rss with
              | nil => simp [regionWithinB] at h
              | cons rs rss =>
                  simp only [regionWithinB, Bool.and_eq_true] at h
                  have := ih h.2
                  simp only [List.length_cons]
                  omega

theorem withinRadiusB_length {rs : List ℕ} {ks : List ℤ}
    (h : withinRadiusB rs ks = true) : ks.length = rs.length := by
  induction rs generalizing ks with
  | nil => cases ks <;> simp_all [withinRadiusB]
  | cons ri rs ih =>
      cases ks with
      | nil => simp [withinRadiusB] at h
      | cons kk ks =>
          simp only [withinRadiusB, Bool.and_eq_true] at h
          have := ih h.2
          simp [this]

/-- Linearity of the row-major offset: the offset of `center + k`
equals the offset of `center` plus the offset-table entry of the
relative coordinate `k`. -/
theorem computeOffsetZ_zipWith_add {os : List ℤ} {ss : List ℕ}
    {c k : List ℤ} (h1 : os.length = ss.length)
    (h2 : c.length = os.length) (h3 : k.length = os.length) :
    computeOffsetZ os ss (List.zipWith (· + ·) c k) =
      computeOffsetZ os ss c + dotStrides ss k := by
  induction os generalizing ss c k with
  | nil =>
      cases ss with
      | nil =>
          cases c <;> cases k <;>
            simp_all [computeOffsetZ, dotStrides]
      | cons s ss => simp at h1
  | cons o os ih =>
      cases ss with
      | nil => simp at h1
      | cons s ss =>
          cases c with
          | nil => simp at h2
          | cons c0 cs =>
              cases k with
              | nil => simp at h3
              | cons k0 ks =>
                  simp only [List.zipWith_cons_cons, computeOffsetZ, dotStrides]
                  rw [ih (by simpa using h1) (by simpa using h2) (by simpa using h3)]
                  ring

theorem axisInfos_length {ios : List ℤ} {imss : List ℕ}
    {ros : List ℤ} {rss rrs : List ℕ}
    (h1 : imss.length = ios.length) (h2 : ros.length = ios.length)
    (h3 : rss.length = ios.length) (h4 : rrs.length = ios.length) :
    (axisInfos ios imss ros rss rrs).length = ios.length := by
  induction ios generalizing imss ros rss rrs with
  | nil =>
      cases imss <;> cases ros <;> cases rss <;> cases rrs <;>
        simp_all [axisInfos]
  | cons io ios ih =>
      cases imss with
      | nil => simp at h1
      | cons ims imss =>
          cases ros with
          | nil => simp at h2
          | cons ro ros =>
              cases rss with
              | nil => simp at h3
              | cons rs rss =>
                  cases rrs with
                  | nil => simp at h4
                  | cons rr rrs =>
                      simp only [axisInfos, List.length_cons]
                      rw [ih (by simpa using h1) (by simpa using h2)
                        (by simpa using h3) (by simpa using h4)]

/-- A neighbor within the radius of a center of the interior face lies
within the image region: the interior face is safe for unchecked
neighborhood access. -/
theorem interior_neighbor_in_image :
    ∀ (ios : List ℤ) (imss : List ℕ) (ros : List ℤ) (rss rrs : List ℕ)
      (c k : List ℤ),
      rrs.length = ios.length →
      regionWithinB ios imss ros rss = true →
      (interiorRegion (axisInfos ios imss ros rss rrs)).mem c = true →
      withinRadiusB rrs k = true →
      containsB ios imss (List.zipWith (· + ·) c k) = true := by
  intro ios
  induction ios with
  | nil =>
      intro imss ros rss rrs c k hr hw hc hk
      cases imss <;> cases ros <;> cases rss <;> simp_all [regionWithinB]
      cases rrs with
      | cons _ _ => simp at hr
      | nil =>
          cases k with
          | cons _ _ => simp [withinRadiusB] at hk
          | nil =>
              cases c with
              | cons _ _ =>
                  simp [axisInfos, interiorRegion, Region.mem, containsB] at hc
              | nil => simp [containsB]
  | cons io ios ih =>
      intro imss ros rss rrs c k hr hw hc hk
      cases imss with
      | nil => simp [regionWithinB] at hw
      | cons ims imss =>
          cases ros with
          | nil => simp [regionWithinB] at hw
          | cons ro ros =>
              cases rss with
              | nil => simp [regionWithinB] at hw
              | cons rs rss =>
                  cases rrs with
                  | nil => simp at hr
                  | cons rr rrs =>
                      cases k with
                      | nil => simp [withinRadiusB] at hk
                      | cons k0 ks =>
                          simp only [regionWithinB, Bool.and_eq_true,
                            decide_eq_true_eq] at hw
                          simp only [withinRadiusB, Bool.and_eq_true,
                            decide_eq_true_eq] at hk
                          rw [axisInfos, interiorRegion_cons] at hc
                          rcases containsB_cons.mp hc with
                            ⟨c0, cs, rfl, hc1, hc2, hc3⟩
                          simp only [List.zipWith_cons_cons]
                          refine containsB_cons.mpr ⟨c0 + k0, _, rfl, ?_, ?_, ?_⟩
                          · simp only [mkAxisInfo] at hc1 hc2
                            split_ifs at hc1 hc2 <;> omega
                          · simp only [mkAxisInfo] at hc1 hc2
                            split_ifs at hc1 hc2 <;> omega
                          · exact ih imss ros rss rrs cs ks
                              (by simpa using hr) hw.2 hc3 hk.2

theorem prodl_eq_zero_iff {ss : List ℕ} : prodl ss = 0 ↔ (0 : ℕ) ∈ ss := by
  induction ss with
  | nil => simp [prodl]
  | cons s ss ih => simp [prodl, Nat.mul_eq_zero, ih, eq_comm]

theorem containsB_self {os : List ℤ} {ss : List ℕ}
    (hl : os.length = ss.length) (hpos : (0 : ℕ) ∉ ss) :
    containsB os ss os = true := by
  induction os generalizing ss with
  | nil =>
      cases ss with
      | nil => simp [containsB]
      | cons s ss => simp at hl
  | cons o os ih =>
      cases ss with
      | nil => simp at hl
      | cons s ss =>
          have hs : s ≠ 0 := fun h => hpos (by simp [h])
          simp only [containsB, Bool.and_eq_true, decide_eq_true_eq]
          exact ⟨⟨le_refl o, by omega⟩,
            ih (by simpa using hl) (fun h => hpos (List.mem_cons_of_mem _ h))⟩

/-- A region whose origin and size lists have equal length contains no
index at all exactly when some axis size is zero. -/
theorem containsB_none_iff {os : List ℤ} {ss : List ℕ}
    (hl : os.length = ss.length) :
    (∀ p : List ℤ, containsB os ss p = false) ↔ (0 : ℕ) ∈ ss := by
  constructor
  · intro h
    by_contra hpos
    have := containsB_self hl hpos
    rw [h os] at this
    exact Bool.false_ne_true this
  · intro h0 p
    induction os generalizing ss p with
    | nil =>
        cases ss with
        | nil => simp at h0
        | cons s ss => simp at hl
    | cons o os ih =>
        cases ss with
        | nil => simp at hl
        | cons s ss =>
            cases p with
            | nil => simp [containsB]
            | cons x xs =>
                rcases List.mem_cons.mp h0 with h1 | h1
                · have hs0 : s = 0 := h1.symm
                  subst hs0
                  simp only [containsB, Bool.and_eq_false_iff]
                  left
                  rcases le_or_lt o x with hox | hox
                  · right
                    simp only [decide_eq_false_iff_not, not_lt, Nat.cast_zero,
                      add_zero]
                    exact hox
                  · left
                    simp only [decide_eq_false_iff_not, not_le]
                    exact hox
                · simp only [containsB]
                  rw [ih (by simpa using hl) h1 xs]
                  simp

theorem mkAxisInfo_self_isz (ro : ℤ) (rs rr : ℕ) :
    (mkAxisInfo ro rs ro rs rr).isz = 0 ↔ rs ≤ 2 * rr := by
  simp only [mkAxisInfo]
  split_ifs with h1 h2 h2 <;> omega

/-- When the decomposed region is the whole image, the interior face
has a zero axis size exactly when some axis extent is at most twice
the radius. -/
theorem interior_self_empty_axis :
    ∀ (os : List ℤ) (ss rrs : List ℕ),
      ss.length = os.length → rrs.length = os.length →
      ((0 : ℕ) ∈ (interiorRegion (axisInfos os ss os ss rrs)).size ↔
        ∃ pr ∈ ss.zip rrs, pr.1 ≤ 2 * pr.2) := by
  intro os
  induction os with
  | nil =>
      intro ss rrs h1 h2
      cases ss with
      | cons _ _ => simp at h1
      | nil =>
          cases rrs with
          | cons _ _ => simp at h2
          | nil => simp [axisInfos, interiorRegion]
  | cons o os ih =>
      intro ss rrs h1 h2
      cases ss with
      | nil => simp at h1
      | cons s ss =>
          cases rrs with
          | nil => simp at h2
          | cons rr rrs =>
              simp only [axisInfos, interiorRegion, List.map_cons,
                List.zip_cons_cons, List.mem_cons]
              have hhead : (0 = (mkAxisInfo o s o s rr).isz) ↔ s ≤ 2 * rr := by
                rw [eq_comm]
                exact mkAxisInfo_self_isz o s rr
              have htail := ih ss rrs (by simpa using h1) (by simpa using h2)
              simp only [interiorRegion] at htail
              rw [htail] at *
              constructor
              · rintro (h | h)
                · exact ⟨(s, rr), Or.inl rfl, hhead.mp h⟩
                · rcases h with ⟨pr, hpr, hle⟩
                  exact ⟨pr, Or.inr hpr, hle⟩
              · rintro ⟨pr, hpr | hpr, hle⟩
                · subst hpr
                  exact Or.inl (hhead.mpr hle)
                · exact Or.inr ⟨pr, hpr, hle⟩

theorem interRegion_mem :
    ∀ (ao : List ℤ) (as2 : List ℕ) (bo : List ℤ) (bs : List ℕ) (p : List ℤ),
      ao.length = as2.length → bo.length = ao.length → bs.length = ao.length →
      containsB ((interAxes ao as2 bo bs).map Prod.fst)
          ((interAxes ao as2 bo bs).map Prod.snd) p =
        (containsB ao as2 p && containsB bo bs p) := by
  intro ao
  induction ao with
  | nil =>
      intro as2 bo bs p h1 h2 h3
      cases as2 with
      | cons _ _ => simp at h1
      | nil =>
          cases bo with
          | cons _ _ => simp at h2
          | nil =>
              cases bs with
              | cons _ _ => simp at h3
              | nil => cases p <;> simp [interAxes, containsB]
  | cons a ao ih =>
      intro as2 bo bs p h1 h2 h3
      cases as2 with
      | nil => simp at h1
      | cons s as2 =>
          cases bo with
          | nil => simp at h2
          | cons b bo =>
              cases bs with
              | nil => simp at h3
              | cons t bs =>
                  cases p with
                  | nil => simp [interAxes, containsB]
                  | cons x xs =>
                      simp only [interAxes, List.map_cons, containsB]
                      rw [ih as2 bo bs xs (by simpa using h1)
                        (by simpa using h2) (by simpa using h3)]
                      have hcase : (decide (max a b ≤ x) &&
                          decide (x < max a b +
                            ((min (a + (s : ℤ)) (b + (t : ℤ)) - max a b).toNat : ℤ))) =
                          ((decide (a ≤ x) && decide (x < a + (s : ℤ))) &&
                            (decide (b ≤ x) && decide (x < b + (t : ℤ)))) := by
                        rw [Bool.eq_iff_iff]
                        simp only [Bool.and_eq_true, decide_eq_true_eq]
                        omega
                      rw [hcase, Bool.eq_iff_iff]
                      simp only [Bool.and_eq_true]
                      tauto

theorem fillValue_ne (objectValue : ℤ) : fillValue objectValue ≠ objectValue := by
  unfold fillValue
  split_ifs with h <;> omega

theorem copyLoop_not_mem {objectValue : ℤ} {inp : List ℤ → ℤ} :
    ∀ (l : List (List ℤ)) (out : List ℤ → ℤ) (p : List ℤ), p ∉ l →
      copyLoop objectValue inp l out p = out p := by
  intro l
  induction l with
  | nil => intro out p _; rfl
  | cons q qs ih =>
      intro out p hp
      have hpq : p ≠ q := fun h => hp (h ▸ List.mem_cons_self q qs)
      have hprest : p ∉ qs := fun h => hp (List.mem_cons_of_mem _ h)
      simp only [copyLoop]
      rw [ih _ p hprest]
      split_ifs with h
      · rw [Function.update_noteq hpq]
      · rfl

theorem copyLoop_copies {objectValue : ℤ} {inp : List ℤ → ℤ} :
    ∀ (l : List (List ℤ)) (out : List ℤ → ℤ),
      l.Nodup → (∀ q ∈ l, out q = fillValue objectValue) →
      ∀ p ∈ l, copyLoop objectValue inp l out p = inp p := by
  intro l
  induction l with
  | nil => intro out _ _ p hp; simp at hp
  | cons q qs ih =>
      intro out hnd hfill p hp
      have hqd := List.nodup_cons.mp hnd
      have hfq : out q = fillValue objectValue := hfill q (List.mem_cons_self _ _)
      have hne : out q ≠ objectValue := by
        rw [hfq]; exact fillValue_ne objectValue
      simp only [copyLoop, if_pos hne]
      rcases List.mem_cons.mp hp with rfl | hp2
      · rw [copyLoop_not_mem qs _ p hqd.1, Function.update_same]
      · refine ih _ hqd.2 ?_ p hp2
        intro q2 hq2
        have hq2q : q2 ≠ q := fun h => hqd.1 (h ▸ hq2)
        rw [Function.update_noteq hq2q]
        exact hfill q2 (List.mem_cons_of_mem _ hq2)

theorem three_pow_facts {i D : ℕ} (h : i < D) :
    1 ≤ 3 ^ i ∧ 3 ^ i ≤ 3 ^ D / 2 := by
  constructor
  · exact Nat.one_le_pow _ _ (by norm_num)
  · rw [Nat.le_div_iff_mul_le (by norm_num)]
    calc 3 ^ i * 2 ≤ 3 ^ i * 3 := by omega
      _ = 3 ^ (i + 1) := by rw [pow_succ]
      _ ≤ 3 ^ D := Nat.pow_le_pow_right (by norm_num) h

theorem three_pow_strict {i m : ℕ} (h : i < m) : 3 ^ i < 3 ^ m :=
  Nat.pow_lt_pow_right (by norm_num) h

theorem lapLoop_untouched (s : ℕ → ℚ) (w2 : ℕ) :
    ∀ (m : ℕ) (f : ℕ → ℚ) (j : ℕ),
      (∀ i, i < m → j ≠ w2 - 3 ^ i ∧ j ≠ w2 + 3 ^ i) →
      lapLoop s w2 m f j = f j := by
  intro m
  induction m with
  | zero => intro f j _; rfl
  | succ m ih =>
      intro f j hj
      have hm := hj m (by omega)
      simp only [lapLoop]
      rw [Function.update_noteq hm.1, Function.update_noteq hm.2]
      exact ih f j (fun i hi => hj i (by omega))

theorem lapLoop_hit (s : ℕ → ℚ) (w2 : ℕ) :
    ∀ (m : ℕ) (f : ℕ → ℚ) (i : ℕ), i < m →
      (∀ q, q < m → 3 ^ q ≤ w2) →
      lapLoop s w2 m f (w2 - 3 ^ i) = s i * s i ∧
      lapLoop s w2 m f (w2 + 3 ^ i) = s i * s i := by
  intro m
  induction m with
  | zero => intro f i hi _; omega
  | succ m ih =>
      intro f i hi hw
      have h1m : 1 ≤ 3 ^ m := Nat.one_le_pow _ _ (by norm_num)
      have hwm : 3 ^ m ≤ w2 := hw m (by omega)
      rcases Nat.lt_succ_iff_lt_or_eq.mp hi with hlt | rfl
      · have h1i : 1 ≤ 3 ^ i := Nat.one_le_pow _ _ (by norm_num)
        have hwi : 3 ^ i ≤ w2 := hw i (by omega)
        have him : 3 ^ i < 3 ^ m := three_pow_strict hlt
        simp only [lapLoop]
        rw [Function.update_noteq (by omega), Function.update_noteq (by omega),
          Function.update_noteq (by omega), Function.update_noteq (by omega)]
        exact ih f i hlt (fun q hq => hw q (by omega))
      · simp only [lapLoop]
        constructor
        · rw [Function.update_same]
        · rw [Function.update_noteq (by omega), Function.update_same]

theorem sum_update_range {w p : ℕ} (hp : p < w) (g : ℕ → ℚ) (v : ℚ) :
    ∑ j in Finset.range w, Function.update g p v j =
      v + (∑ j in Finset.range w, g j) - g p := by
  rw [Finset.sum_update_of_mem (Finset.mem_range.mpr hp)]
  rw [Finset.sdiff_singleton_eq_erase]
  rw [Finset.sum_erase_eq_sub (Finset.mem_range.mpr hp)]
  ring

theorem lapLoop_sum (s : ℕ → ℚ) (w2 w : ℕ) :
    ∀ m : ℕ, (∀ i, i < m → 3 ^ i ≤ w2 ∧ w2 + 3 ^ i < w) →
      ∑ j in Finset.range w, lapLoop s w2 m (fun _ => 0) j =
        ∑ i in Finset.range m, 2 * (s i * s i) := by
  intro m
  induction m with
  | zero => simp [lapLoop]
  | succ m ih =>
      intro hb
      have hbm := hb m (by omega)
      have h1m : 1 ≤ 3 ^ m := Nat.one_le_pow _ _ (by norm_num)
      have hg1 : lapLoop s w2 m (fun _ => 0) (w2 - 3 ^ m) = 0 := by
        rw [lapLoop_untouched s w2 m _ _ ?_]
        intro i hi
        have hsm := three_pow_strict hi
        have hsw := (hb i (by omega)).1
        have h1i : 1 ≤ 3 ^ i := Nat.one_le_pow _ _ (by norm_num)
        constructor <;> omega
      have hg2 : lapLoop s w2 m (fun _ => 0) (w2 + 3 ^ m) = 0 := by
        rw [lapLoop_untouched s w2 m _ _ ?_]
        intro i hi
        have hsm := three_pow_strict hi
        have hsw := (hb i (by omega)).1
        have h1i : 1 ≤ 3 ^ i := Nat.one_le_pow _ _ (by norm_num)
        constructor <;> omega
      have hne : w2 - 3 ^ m ≠ w2 + 3 ^ m := by omega
      have hih := ih (fun i hi => hb i (by omega))
      simp only [lapLoop]
      rw [sum_update_range (show w2 - 3 ^ m < w by omega)]
      rw [sum_update_range (show w2 + 3 ^ m < w by omega)]
      rw [Function.update_noteq hne, hg1, hg2, hih, Finset.sum_range_succ]
      ring

theorem list_range_map_sum (w : ℕ) (f : ℕ → ℚ) :
    ((List.range w).map f).sum = ∑ j in Finset.range w, f j := by
  induction w with
  | zero => simp
  | succ n ih =>
      rw [List.range_succ, List.map_append, List.sum_append,
        Finset.sum_range_succ, ih]
      simp

/-- Claim C1 (amended): for every image, region R and radius r of the
image's dimension, the boundary-faces decomposition produces pairwise
disjoint faces whose union is exactly R, with the interior face first;
and when R is the whole image, the interior face is empty iff SOME
axis extent of R is at most 2r (the claim's "every axis" fails; see
the counterexample). -/
theorem C1_faceDecomposition (img R : Region) (r : List ℕ)
    (h1 : img.origin.length = R.origin.length)
    (h2 : img.size.length = R.origin.length)
    (h3 : R.size.length = R.origin.length)
    (h4 : r.length = R.origin.length) :
    FaceDecompositionSpec img R r := by
  refine ⟨faceListAx_pairwise _, ?_, rfl, ?_⟩
  · intro p
    have hfull := fullRegion_axisInfos img.origin img.size R.origin R.size r
      h1 h2 h3 h4
    have hmem := mem_faceListAx
      (axisInfos img.origin img.size R.origin R.size r) p
    rw [hfull] at hmem
    have hR : (⟨R.origin, R.size⟩ : Region) = R := rfl
    rw [hR] at hmem
    exact hmem.symm
  · intro hR
    subst hR
    have hiff : (∀ p : List ℤ, (interiorFace R R r).mem p = false) ↔
        (0 : ℕ) ∈ (interiorFace R R r).size :=
      containsB_none_iff (by simp [interiorFace, interiorRegion])
    rw [hiff]
    exact interior_self_empty_axis R.origin R.size r h3 h4

/-- Claim C1 as frozen is false: for the 2-D image and region of size
(10, 2) with radius (1, 1), the interior face of the decomposition is
empty, yet not every axis extent is at most twice the radius (axis 0
has extent 10 > 2). -/
theorem C1_counterexample :
    ¬ ((∀ p : List ℤ,
        (interiorFace ⟨[0, 0], [10, 2]⟩ ⟨[0, 0], [10, 2]⟩ [1, 1]).mem p = false) ↔
      ∀ pr ∈ (([10, 2] : List ℕ).zip ([1, 1] : List ℕ)), pr.1 ≤ 2 * pr.2) := by
  intro h
  have hempty : ∀ p : List ℤ,
      (interiorFace ⟨[0, 0], [10, 2]⟩ ⟨[0, 0], [10, 2]⟩ [1, 1]).mem p = false :=
    (containsB_none_iff (by decide)).mpr (by decide)
  exact absurd (h.mp hempty) (by decide)

/-- Witness for claim C1's amended theorem: the spec's own concrete
scenario, a 5-by-5 image with radius 1 decomposed over its whole
region. -/
theorem C1_witness :
    ((⟨[0, 0], [5, 5]⟩ : Region).origin.length =
        (⟨[0, 0], [5, 5]⟩ : Region).origin.length ∧
      (⟨[0, 0], [5, 5]⟩ : Region).size.length =
        (⟨[0, 0], [5, 5]⟩ : Region).origin.length ∧
      (⟨[0, 0], [5, 5]⟩ : Region).size.length =
        (⟨[0, 0], [5, 5]⟩ : Region).origin.length ∧
      ([1, 1] : List ℕ).length = (⟨[0, 0], [5, 5]⟩ : Region).origin.length) ∧
    FaceDecompositionSpec ⟨[0, 0], [5, 5]⟩ ⟨[0, 0], [5, 5]⟩ [1, 1] :=
  ⟨⟨rfl, rfl, rfl, rfl⟩,
    C1_faceDecomposition ⟨[0, 0], [5, 5]⟩ ⟨[0, 0], [5, 5]⟩ [1, 1] rfl rfl rfl rfl⟩

/-- Claim C2: for every region, a region iterator driven from
`GoToBegin` until `IsAtEnd` visits exactly `GetNumberOfPixels` indices,
each within the region, each exactly once, in strictly increasing
row-major order: consecutive visited indices have row-major offsets
that differ by exactly one. -/
theorem C2_regionIteration (os : List ℤ) (ss : List ℕ)
    (hl : os.length = ss.length) : RowMajorIterationSpec os ss := by
  have htr := iterTrace_eq_map_decode hl
  have hlen : (iterTrace os ss).length = prodl ss := by rw [htr]; simp
  refine ⟨hlen, ?_, iterTrace_nodup hl, ?_⟩
  · intro p hp
    rw [htr] at hp
    rcases List.mem_map.mp hp with ⟨n, hn, rfl⟩
    exact containsB_decodeIdx hl (List.mem_range.mp hn)
  · intro n h
    have hg : ∀ m : ℕ, m < (iterTrace os ss).length →
        (iterTrace os ss).getD m [] = decodeIdx m os ss := by
      intro m hm
      have hm2 : m < ((List.range (prodl ss)).map
          (fun n => decodeIdx n os ss)).length := by
        simp only [List.length_map, List.length_range]
        omega
      rw [htr, List.getD_eq_getElem _ _ hm2, List.getElem_map, List.getElem_range]
    rw [hg (n + 1) h, hg n (Nat.lt_of_succ_lt h)]
    rw [computeOffsetZ_decodeIdx hl (by omega),
      computeOffsetZ_decodeIdx hl (by omega)]
    push_cast
    ring

/-- Witness for claim C2: the iterator over a 2-by-3 region. -/
theorem C2_witness :
    ([0, 0] : List ℤ).length = ([2, 3] : List ℕ).length ∧
      RowMajorIterationSpec [0, 0] [2, 3] :=
  ⟨rfl, C2_regionIteration [0, 0] [2, 3] rfl⟩

/-- Claim C3: for every index within the buffered region, its
row-major linear offset is non-negative, and decoding it by the
successive modulo/division loop of the source (axis 0 first, adding
the region's begin index) recovers the index exactly:
`ComputeIndex(ComputeOffset(idx)) == idx`. -/
theorem C3_offsetIndexRoundTrip (os : List ℤ) (ss : List ℕ) (idx : List ℤ)
    (h : containsB os ss idx = true) :
    0 ≤ computeOffsetZ os ss idx ∧
      decodeIdx (computeOffsetZ os ss idx).toNat os ss = idx :=
  ⟨(computeOffsetZ_nonneg_lt h).1, decodeIdx_computeOffsetZ h⟩

/-- Witness for claim C3: a concrete index of a 4-by-7 buffered region
with a negative origin component. -/
theorem C3_witness :
    containsB [5, -3] [4, 7] [6, 0] = true ∧
    (0 ≤ computeOffsetZ [5, -3] [4, 7] [6, 0] ∧
      decodeIdx (computeOffsetZ [5, -3] [4, 7] [6, 0]).toNat [5, -3] [4, 7] =
        [6, 0]) :=
  ⟨by decide, C3_offsetIndexRoundTrip [5, -3] [4, 7] [6, 0] (by decide)⟩

/-- Claim C4: `GenerateInputRequestedRegion` pads the requested region
symmetrically by the radius without clamping and crops it against the
largest possible region; a successful crop installs the (nonempty)
cropped region with no error, a failed crop stores the uncropped
padded region on the image and raises the invalid-requested-region
error carrying that region and the image identity, and the crop fails
exactly when the padded region does not overlap the largest possible
region — the region is never silently clamped to empty. -/
theorem C4_generateInputRequestedRegion (input : ImageState) (radius : List ℕ)
    (hl1 : input.requestedRegion.origin.length = radius.length)
    (hl2 : input.requestedRegion.size.length = radius.length)
    (hl3 : input.largestPossibleRegion.origin.length = radius.length)
    (hl4 : input.largestPossibleRegion.size.length = radius.length) :
    PadCropRequestSpec input radius := by
  refine ⟨?_, ?_, ?_⟩
  · intro C hC
    constructor
    · simp only [generateInputRequestedRegion, hC]
    · simp only [cropRegion] at hC
      split_ifs at hC with h
      cases hC
      exact h
  · intro hC
    simp only [generateInputRequestedRegion, hC]
  · have hlpo : (padByRadius input.requestedRegion radius).origin.length =
        radius.length := by
      simp only [padByRadius, List.length_zipWith, hl1, Nat.min_self]
    have hlps : (padByRadius input.requestedRegion radius).size.length =
        radius.length := by
      simp only [padByRadius, List.length_zipWith, hl2, Nat.min_self]
    have hmem : ∀ p : List ℤ,
        (interRegion (padByRadius input.requestedRegion radius)
          input.largestPossibleRegion).mem p =
        ((padByRadius input.requestedRegion radius).mem p &&
          input.largestPossibleRegion.mem p) := by
      intro p
      exact interRegion_mem _ _ _ _ p (by rw [hlpo, hlps])
        (by rw [hl3, hlpo]) (by rw [hl4, hlpo])
    have hleni : (interRegion (padByRadius input.requestedRegion radius)
        input.largestPossibleRegion).origin.length =
        (interRegion (padByRadius input.requestedRegion radius)
          input.largestPossibleRegion).size.length := by
      simp [interRegion]
    have hnone : cropRegion (padByRadius input.requestedRegion radius)
        input.largestPossibleRegion = none ↔
        prodl (interRegion (padByRadius input.requestedRegion radius)
          input.largestPossibleRegion).size = 0 := by
      simp only [cropRegion]
      split_ifs with h
      · constructor
        · intro hx
          exact absurd hx (by simp)
        · intro hx
          omega
      · constructor
        · intro _
          omega
        · intro _
          rfl
    rw [hnone, prodl_eq_zero_iff, ← containsB_none_iff hleni]
    constructor
    · intro hz p
      have := hz p
      have hm := hmem p
      rw [Region.mem] at hm
      rw [hm] at this
      intro hand
      rw [hand.1, hand.2] at this
      simp at this
    · intro hz p
      have hm := hmem p
      rw [Region.mem] at hm
      rw [hm]
      cases hpad : (padByRadius input.requestedRegion radius).mem p
      · simp
      · cases hlarge : input.largestPossibleRegion.mem p
        · simp
        · exact absurd ⟨hpad, hlarge⟩ (hz p)

/-- Witness for claim C4: a 1-D image of extent 10 whose requested
region of extent 3 at index 2 is padded by radius 1 and cropped. -/
theorem C4_witness :
    ((⟨⟨[0], [10]⟩, ⟨[2], [3]⟩, 42⟩ : ImageState).requestedRegion.origin.length =
        ([1] : List ℕ).length ∧
      (⟨⟨[0], [10]⟩, ⟨[2], [3]⟩, 42⟩ : ImageState).requestedRegion.size.length =
        ([1] : List ℕ).length ∧
      (⟨⟨[0], [10]⟩, ⟨[2], [3]⟩, 42⟩ :
          ImageState).largestPossibleRegion.origin.length =
        ([1] : List ℕ).length ∧
      (⟨⟨[0], [10]⟩, ⟨[2], [3]⟩, 42⟩ :
          ImageState).largestPossibleRegion.size.length =
        ([1] : List ℕ).length) ∧
    PadCropRequestSpec ⟨⟨[0], [10]⟩, ⟨[2], [3]⟩, 42⟩ [1] :=
  ⟨⟨rfl, rfl, rfl, rfl⟩,
    C4_generateInputRequestedRegion ⟨⟨[0], [10]⟩, ⟨[2], [3]⟩, 42⟩ [1]
      rfl rfl rfl rfl⟩

/-- Claim C5: for a neighborhood iterator centered at any index of the
interior face, every neighbor within the radius has its absolute index
inside the image region, and `GetPixel` returns the direct buffer read
at that absolute index with the in-bounds flag set — the
boundary-condition strategy is never invoked. -/
theorem C5_interiorNeighborhoodAccess (img R : Region) (r : List ℕ)
    (buffer : ℤ → ℤ) (bc : BoundaryCondition) (center k : List ℤ)
    (hw : regionWithinB img.origin img.size R.origin R.size = true)
    (hr : r.length = img.origin.length)
    (hc : (interiorFace img R r).mem center = true)
    (hk : withinRadiusB r k = true) :
    img.mem (List.zipWith (· + ·) center k) = true ∧
    getPixelFlag img buffer bc center k =
      (buffer (computeOffsetZ img.origin img.size
        (List.zipWith (· + ·) center k)), true) := by
  have hwl := regionWithinB_length hw
  have habs := interior_neighbor_in_image img.origin img.size R.origin R.size
    r center k hr hw hc hk
  refine ⟨habs, ?_⟩
  have hcl := containsB_length hc
  have haxl : (axisInfos img.origin img.size R.origin R.size r).length =
      img.origin.length :=
    axisInfos_length hwl.1 hwl.2.1 hwl.2.2 hr
  have hcenl : center.length = img.origin.length := by
    have : (interiorFace img R r).origin.length =
        (axisInfos img.origin img.size R.origin R.size r).length := by
      simp [interiorFace, interiorRegion]
    omega
  have hkl : k.length = img.origin.length := by
    rw [withinRadiusB_length hk, hr]
  simp only [getPixelFlag]
  rw [if_pos (show img.mem (List.zipWith (· + ·) center k) = true from habs)]
  rw [computeOffsetZ_zipWith_add hwl.1.symm hcenl hkl]

/-- Witness for claim C5: the 5-by-5 image of the spec's concrete
scenario, centered at the interior index (1,1), reading the neighbor
at relative offset (-1,-1). -/
theorem C5_witness :
    regionWithinB ([0, 0] : List ℤ) ([5, 5] : List ℕ) [0, 0] [5, 5] = true ∧
    ([1, 1] : List ℕ).length = ([0, 0] : List ℤ).length ∧
    (interiorFace ⟨[0, 0], [5, 5]⟩ ⟨[0, 0], [5, 5]⟩ [1, 1]).mem [1, 1] = true ∧
    withinRadiusB [1, 1] [-1, -1] = true ∧
    ((⟨[0, 0], [5, 5]⟩ : Region).mem
        (List.zipWith (· + ·) [1, 1] [-1, -1]) = true ∧
      getPixelFlag ⟨[0, 0], [5, 5]⟩ (fun z => z)
          (BoundaryCondition.constant 7) [1, 1] [-1, -1] =
        ((fun z : ℤ => z) (computeOffsetZ [0, 0] [5, 5]
          (List.zipWith (· + ·) [1, 1] [-1, -1])), true)) :=
  ⟨by decide, rfl, by decide, by decide,
    C5_interiorNeighborhoodAccess ⟨[0, 0], [5, 5]⟩ ⟨[0, 0], [5, 5]⟩ [1, 1]
      (fun z => z) (BoundaryCondition.constant 7) [1, 1] [-1, -1]
      (by decide) rfl (by decide) (by decide)⟩

/-- Claim C6: with a `Constant(c)` boundary condition, `GetPixel` at a
neighbor whose absolute index falls outside the buffered region
returns exactly `c`; the boundary condition installed by the
`ObjectMorphologyImageFilter` constructor is Constant with the zero
pixel value, and with it such an access returns 0. -/
theorem C6_constantBoundaryCondition :
    (∀ (buffered : Region) (buffer : ℤ → ℤ) (c : ℤ) (center k : List ℤ),
      buffered.mem (List.zipWith (· + ·) center k) = false →
      getPixel buffered buffer (BoundaryCondition.constant c) center k = c) ∧
    objectMorphologyDefaultBoundaryCondition = BoundaryCondition.constant 0 ∧
    (∀ (buffered : Region) (buffer : ℤ → ℤ) (center k : List ℤ),
      buffered.mem (List.zipWith (· + ·) center k) = false →
      getPixel buffered buffer objectMorphologyDefaultBoundaryCondition
        center k = 0) := by
  refine ⟨?_, rfl, ?_⟩
  · intro buffered buffer c center k h
    simp [getPixel, getPixelFlag, h, BoundaryCondition.eval]
  · intro buffered buffer center k h
    simp [getPixel, getPixelFlag, h, BoundaryCondition.eval,
      objectMorphologyDefaultBoundaryCondition, setConstant,
      defaultConstructedBoundaryCondition]

/-- Witness for claim C6: reading the out-of-bounds neighbor at
relative offset -1 from index 0 of a 1-D image of extent 3. -/
theorem C6_witness :
    (⟨[0], [3]⟩ : Region).mem (List.zipWith (· + ·) [0] [-1]) = false ∧
    getPixel ⟨[0], [3]⟩ (fun z => z) (BoundaryCondition.constant 9) [0] [-1] =
      9 :=
  ⟨by decide, C6_constantBoundaryCondition.1 ⟨[0], [3]⟩ (fun z => z) 9 [0] [-1]
    (by decide)⟩

/-- Claim C7: the two-output `GetPixel` returns the same pixel value
as the one-output `GetPixel`; its output flag is false exactly when
the neighbor's absolute index fell outside the buffered region (the
value was synthesized by the boundary condition, which callers such as
`IsObjectPixelOnBoundary` use to skip synthesized values), and in that
case the returned value is the boundary condition's; no access
raises. -/
theorem C7_getPixelTwoArg (buffered : Region) (buffer : ℤ → ℤ)
    (bc : BoundaryCondition) (center k : List ℤ) :
    (getPixelFlag buffered buffer bc center k).1 =
      getPixel buffered buffer bc center k ∧
    ((getPixelFlag buffered buffer bc center k).2 = false ↔
      buffered.mem (List.zipWith (· + ·) center k) = false) ∧
    ((getPixelFlag buffered buffer bc center k).2 = false →
      (getPixelFlag buffered buffer bc center k).1 =
        BoundaryCondition.eval bc buffer buffered
          (List.zipWith (· + ·) center k)) := by
  refine ⟨rfl, ?_, ?_⟩ <;> simp only [getPixelFlag] <;>
    split_ifs with h <;> simp_all

/-- Witness for claim C7: the two-output read of an out-of-bounds
neighbor with a constant boundary condition. -/
theorem C7_witness :
    (getPixelFlag ⟨[0], [3]⟩ (fun z => z) (BoundaryCondition.constant 4)
        [0] [5]).1 =
      getPixel ⟨[0], [3]⟩ (fun z => z) (BoundaryCondition.constant 4)
        [0] [5] ∧
    ((getPixelFlag ⟨[0], [3]⟩ (fun z => z) (BoundaryCondition.constant 4)
        [0] [5]).2 = false ↔
      (⟨[0], [3]⟩ : Region).mem (List.zipWith (· + ·) [0] [5]) = false) ∧
    ((getPixelFlag ⟨[0], [3]⟩ (fun z => z) (BoundaryCondition.constant 4)
        [0] [5]).2 = false →
      (getPixelFlag ⟨[0], [3]⟩ (fun z => z) (BoundaryCondition.constant 4)
          [0] [5]).1 =
        BoundaryCondition.eval (BoundaryCondition.constant 4) (fun z => z)
          ⟨[0], [3]⟩ (List.zipWith (· + ·) [0] [5])) :=
  C7_getPixelTwoArg ⟨[0], [3]⟩ (fun z => z) (BoundaryCondition.constant 4)
    [0] [5]

/-- Claim C8: the initial fill value of `BeforeThreadedGenerateData`
always differs from `m_ObjectValue`, so the copy loop's guard is
satisfied at every visited position and after the loop every pixel of
the output's requested region equals the corresponding input pixel. -/
theorem C8_beforeThreadedCopiesInput (objectValue : ℤ) (inp : List ℤ → ℤ)
    (R : Region) (hl : R.origin.length = R.size.length) :
    fillValue objectValue ≠ objectValue ∧
    ∀ p : List ℤ, R.mem p = true →
      beforeThreadedGenerateData objectValue inp R p = inp p := by
  refine ⟨fillValue_ne _, ?_⟩
  intro p hp
  have htr := iterTrace_eq_map_decode hl
  have hmem : p ∈ iterTrace R.origin R.size := by
    rw [htr]
    refine List.mem_map.mpr
      ⟨(computeOffsetZ R.origin R.size p).toNat, ?_, ?_⟩
    · rw [List.mem_range]
      have := computeOffsetZ_nonneg_lt hp
      omega
    · exact decodeIdx_computeOffsetZ hp
  exact copyLoop_copies _ _ (iterTrace_nodup hl) (fun q _ => rfl) p hmem

/-- Witness for claim C8: a 1-D region of extent 2 with object value 1
and a constant input image. -/
theorem C8_witness :
    (⟨[0], [2]⟩ : Region).origin.length = (⟨[0], [2]⟩ : Region).size.length ∧
    (fillValue 1 ≠ 1 ∧
      ∀ p : List ℤ, (⟨[0], [2]⟩ : Region).mem p = true →
        beforeThreadedGenerateData 1 (fun _ => 7) ⟨[0], [2]⟩ p =
          (fun _ : List ℤ => (7 : ℤ)) p) :=
  ⟨rfl, C8_beforeThreadedCopiesInput 1 (fun _ => 7) ⟨[0], [2]⟩ rfl⟩

/-- Claim C9: `NeighborhoodOperator::SetDirection(d)` throws exactly
when `d >= VDimension`; when it throws the stored direction is
unchanged, and when it does not throw `GetDirection()` returns `d`. -/
theorem C9_setDirection (vdim mDirection direction : ℕ) :
    ((setDirection vdim mDirection direction).2 = true ↔ vdim ≤ direction) ∧
    ((setDirection vdim mDirection direction).2 = true →
      (setDirection vdim mDirection direction).1 = mDirection) ∧
    ((setDirection vdim mDirection direction).2 = false →
      getDirection (setDirection vdim mDirection direction).1 = direction) := by
  unfold setDirection getDirection
  split_ifs with h <;> simp [h]

/-- Claim C10: `LaplacianOperator::GenerateCoefficients` returns a
vector of length `3^D` whose entries at the center plus/minus the
stride of each axis are the squared derivative scaling of that axis,
whose center entry is the negated sum of twice the squared scalings,
and whose remaining entries are zero; the coefficients sum to exactly
zero. -/
theorem C10_laplacianCoefficients (D : ℕ) (s : ℕ → ℚ) :
    LaplacianCoefficientsSpec D s := by
  obtain ⟨t, ht⟩ : Odd (3 ^ D) := Odd.pow ⟨1, by norm_num⟩
  have hwlt : 3 ^ D / 2 < 3 ^ D := by omega
  have hgetD : ∀ j, j < 3 ^ D →
      (laplacianGenerateCoefficients D s).getD j 0 =
        Function.update (lapLoop s (3 ^ D / 2) D (fun _ => 0)) (3 ^ D / 2)
          (-(∑ i in Finset.range D, 2 * (s i * s i))) j := by
    intro j hj
    unfold laplacianGenerateCoefficients
    rw [List.getD_eq_getElem _ _ (by simpa using hj)]
    rw [List.getElem_map, List.getElem_range]
  refine ⟨?_, ?_, ?_, ?_, ?_⟩
  · unfold laplacianGenerateCoefficients
    simp
  · intro i hi
    have hfacts := three_pow_facts hi
    have hhit := lapLoop_hit s (3 ^ D / 2) D (fun _ => 0) i hi
      (fun q hq => (three_pow_facts hq).2)
    constructor
    · rw [hgetD _ (by omega), Function.update_noteq (by omega)]
      exact hhit.1
    · rw [hgetD _ (by omega), Function.update_noteq (by omega)]
      exact hhit.2
  · rw [hgetD _ hwlt, Function.update_same]
  · intro j hj hjc hjs
    rw [hgetD j hj, Function.update_noteq hjc]
    exact lapLoop_untouched s _ D _ j hjs
  · unfold laplacianGenerateCoefficients
    rw [list_range_map_sum, sum_update_range hwlt]
    have hfc : lapLoop s (3 ^ D / 2) D (fun _ => 0) (3 ^ D / 2) = 0 := by
      rw [lapLoop_untouched]
      intro i hi
      have := three_pow_facts hi
      constructor <;> omega
    rw [hfc, lapLoop_sum s _ _ D
      (fun i hi => ⟨(three_pow_facts hi).2, by
        have := three_pow_facts hi
        omega⟩)]
    ring

/-- Witness for claim C10: the 2-D Laplacian coefficients with
scalings 1 and 2. -/
theorem C10_witness :
    LaplacianCoefficientsSpec 2 (fun i => (i : ℚ) + 1) :=
  C10_laplacianCoefficients 2 (fun i => (i : ℚ) + 1)

end ITKCore

